import Mathlib

/-!
Verification of the CBC news-feed aggregation pipeline (SynapseWorks/CBCReader).

The development shallowly embeds the core of `scraper/main.py` and
`scraper/utils.py` as executable Lean functions:

* Text is `String` (Python `len` counts code points, as does `String.length`).
* Python machine-independent operations (`str.strip`, `str.lower`, slicing,
  `" ".join`) are re-implemented on `List Char` and wrapped.
* Timestamps are modelled as `Int`: `parse_date` normalizes a raw date string
  into an ISO-8601 string which the pipeline immediately re-parses with
  `fromisoformat` and compares with `now - timedelta(hours=window_hours)`;
  the embedding works directly with the underlying instant.  (All records of
  one run are rendered in one configured timezone, where ISO-8601 order
  agrees with instant order.)
* External library calls that the repository merely invokes
  (`dateutil`'s date parser behind `parse_date`, NLTK's `sent_tokenize`,
  VADER's sentiment analyzer, the network fetch used by `fetch_content`)
  are kept abstract as fields of an `Ext` record; every theorem about the
  pipeline quantifies over `Ext`.  A concrete `Ext` instance built from the
  small models below is used to evaluate the pipeline on concrete inputs.
* `hashlib.sha1(...).hexdigest()` is embedded in full (`sha1Hex` below).

Floats appear in the source only as the VADER sentiment score, which no
verified property inspects; the embedding carries it as an abstract `Int`
supplied by `Ext` (the `round(x, 3)` of `Bias.to_dict` is then the identity).
-/

namespace CBC

/-- Whitespace in the sense of Python `str.strip` / `str.split`:
space, tab, newline, carriage return, vertical tab, form feed. -/
def isWsChar (c : Char) : Bool :=
  c = ' ' || c = '\t' || c = '\n' || c = '\r' || c.toNat = 11 || c.toNat = 12

/-- Python `str.strip()` on a list of characters: drop whitespace from both
ends. -/
def pyStrip (l : List Char) : List Char :=
  ((l.dropWhile isWsChar).reverse.dropWhile isWsChar).reverse

/-- Python `str.strip()`. -/
def stripStr (s : String) : String := String.mk (pyStrip s.data)

/-- Python slicing `s[:n]`. -/
def takeStr (n : Nat) (s : String) : String := String.mk (s.data.take n)

/-- Python `str.lower()` (ASCII case mapping, which covers every string the
pipeline lowercases). -/
def pyLower (s : String) : String := String.mk (s.data.map Char.toLower)

/-- Does `l` start with `p`? (List-level helper for the substring test.) -/
def startsWithL : List Char → List Char → Bool
  | [], _ => true
  | _ :: _, [] => false
  | p :: ps, c :: cs => p = c && startsWithL ps cs

/-- Python `sub in s` on character lists: does `pat` occur as a contiguous
substring of `l`? -/
def containsSubL (pat : List Char) : List Char → Bool
  | [] => startsWithL pat []
  | c :: cs => startsWithL pat (c :: cs) || containsSubL pat cs

/-- Python `sub in s` for strings. -/
def containsSub (pat s : String) : Bool := containsSubL pat.data s.data

/-- Split a character list at every occurrence of the separator `sep`
(Python `str.split(sep)`). -/
def splitOnCharGo (sep : Char) (acc : List Char) : List Char → List (List Char)
  | [] => [acc.reverse]
  | c :: cs =>
    if c = sep then acc.reverse :: splitOnCharGo sep [] cs
    else splitOnCharGo sep (c :: acc) cs

/-- Python `str.split(sep)` (single-character separator). -/
def splitOnChar (sep : Char) (l : List Char) : List (List Char) :=
  splitOnCharGo sep [] l

/-- State machine for `re.sub(r"<[^>]+>", " ", text)`: when `buf` is
`some inside`, the scanner sits after a `<` whose candidate tag body read so
far is `inside` (in order).  A matched tag (nonempty body terminated by `>`)
becomes one space; an unterminated or empty candidate is emitted literally,
exactly as the regex leaves it. -/
def stripTagsGo : Option (List Char) → List Char → List Char
  | none, [] => []
  | none, c :: cs =>
    if c = '<' then stripTagsGo (some []) cs else c :: stripTagsGo none cs
  | some inside, [] => '<' :: inside.reverse
  | some inside, c :: cs =>
    if c = '>' then
      match inside with
      | [] => '<' :: '>' :: stripTagsGo none cs
      | _ :: _ => ' ' :: stripTagsGo none cs
    else stripTagsGo (some (c :: inside)) cs

/-- The tag-stripping pass of `summarize`: `re.sub(r"<[^>]+>", " ", text)`. -/
def stripTags (s : String) : String := String.mk (stripTagsGo none s.data)

/-- Model of Python `html.unescape` restricted to the common named and
numeric entities that occur in news feeds (`&amp;` `&lt;` `&gt;` `&quot;`
`&#39;` `&apos;` `&nbsp;`); the library's full HTML5 entity table is outside
this development, and every concrete input evaluated below is covered. -/
def htmlUnescapeGo : List Char → List Char
  | [] => []
  | '&' :: 'a' :: 'm' :: 'p' :: ';' :: cs => '&' :: htmlUnescapeGo cs
  | '&' :: 'l' :: 't' :: ';' :: cs => '<' :: htmlUnescapeGo cs
  | '&' :: 'g' :: 't' :: ';' :: cs => '>' :: htmlUnescapeGo cs
  | '&' :: 'q' :: 'u' :: 'o' :: 't' :: ';' :: cs => '"' :: htmlUnescapeGo cs
  | '&' :: '#' :: '3' :: '9' :: ';' :: cs => Char.ofNat 39 :: htmlUnescapeGo cs
  | '&' :: 'a' :: 'p' :: 'o' :: 's' :: ';' :: cs => Char.ofNat 39 :: htmlUnescapeGo cs
  | '&' :: 'n' :: 'b' :: 's' :: 'p' :: ';' :: cs => Char.ofNat 160 :: htmlUnescapeGo cs
  | c :: cs => c :: htmlUnescapeGo cs

/-- Python `html.unescape` (model, see `htmlUnescapeGo`). -/
def htmlUnescape (s : String) : String := String.mk (htmlUnescapeGo s.data)

/-- The cleaning pass of `summarize`:
`cleaned = html.unescape(re.sub(r"<[^>]+>", " ", text))`. -/
def cleanText (text : String) : String := htmlUnescape (stripTags text)

/-- Sentence-final punctuation recognized by the tokenizer model. -/
def isSentEnd (c : Char) : Bool := c = '.' || c = '!' || c = '?'

/-- State machine behind `sentTokenizeModel`: accumulate the current sentence
(reversed) in `acc`, closing it after `.`, `!` or `?` followed by whitespace
or end of input, and skipping inter-sentence whitespace. -/
def stGo (acc : List Char) : List Char → List (List Char)
  | [] => if acc.isEmpty then [] else [acc.reverse]
  | c :: cs =>
    if isWsChar c && acc.isEmpty then stGo [] cs
    else if isSentEnd c && (match cs with | [] => true | d :: _ => isWsChar d) then
      (c :: acc).reverse :: stGo [] cs
    else stGo (c :: acc) cs

/-- Model of NLTK `sent_tokenize` (library code, not part of the repository):
split after sentence-final punctuation followed by whitespace.  Faithful to
the Punkt tokenizer on the simple period-separated prose used for the
concrete evaluations below. -/
def sentTokenizeModel (s : String) : List String :=
  (stGo [] s.data).map String.mk

/-- Python `" ".join(parts)`. -/
def joinSpace : List String → String
  | [] => ""
  | [s] => s
  | s :: ss => s ++ " " ++ joinSpace ss

/-- The per-sentence cost `len(sentence) + 1` accumulated by the loop of
`summarize` (`total_chars += len(sentence) + 1`), summed over a list. -/
def sum1 (ps : List String) : Nat := (ps.map (fun p => p.length + 1)).sum

/-- The sentence-selection loop of `summarize`: starting from the running
total `total`, strip each sentence, skip empty ones, and stop (`break`) at the
first sentence with `total_chars + len(sentence) + 1 > max_chars`. -/
def kept (maxChars : Nat) : Nat → List String → List String
  | _, [] => []
  | total, s :: ss =>
    let s' := stripStr s
    if s' = "" then kept maxChars total ss
    else if maxChars < total + s'.length + 1 then []
    else s' :: kept maxChars (total + s'.length + 1) ss

/-- `summarize(text, max_chars)` of `scraper/utils.py`, parametric in the
sentence tokenizer `tok` (the source calls NLTK `sent_tokenize`). -/
def summarize (tok : String → List String) (text : String) (max_chars : Nat) : String :=
  if text = "" then ""
  else
    let cleaned := cleanText text
    let parts := kept max_chars 0 (tok cleaned)
    let summary :=
      if parts = [] then stripStr (takeStr max_chars cleaned) else joinSpace parts
    stripStr (takeStr max_chars summary)

/-- Greedy sentence accumulation exactly as the spec's words describe it
(claim C6): whole sentences, one space apart, "stopping at the first sentence
whose addition would exceed `maxChars`" — a candidate is accepted while the
joined text stays `≤ maxChars`. -/
def specAccumClaimed (maxChars : Nat) : String → List String → String
  | acc, [] => acc
  | acc, s :: ss =>
    let s' := stripStr s
    if s' = "" then specAccumClaimed maxChars acc ss
    else
      let cand := if acc = "" then s' else acc ++ " " ++ s'
      if cand.length ≤ maxChars then specAccumClaimed maxChars cand ss else acc

/-- The summarizer algorithm exactly as claim C6 states it (stop only when
the addition would strictly exceed `maxChars`; otherwise identical). -/
def summarizeClaimedC6 (tok : String → List String) (text : String) (maxChars : Nat) : String :=
  if text = "" then ""
  else
    let cleaned := cleanText text
    let acc := specAccumClaimed maxChars "" (tok cleaned)
    if acc = "" then stripStr (takeStr maxChars cleaned) else acc

/-- Greedy sentence accumulation as amended: a candidate sentence is accepted
only while the joined text stays strictly below `maxChars` (the loop reserves
one extra character per sentence), i.e. it stops at the first sentence whose
addition would make the joined length reach or exceed `maxChars`. -/
def specAccumAmended (maxChars : Nat) : String → List String → String
  | acc, [] => acc
  | acc, s :: ss =>
    let s' := stripStr s
    if s' = "" then specAccumAmended maxChars acc ss
    else
      let cand := if acc = "" then s' else acc ++ " " ++ s'
      if cand.length < maxChars then specAccumAmended maxChars cand ss else acc

/-- The summarizer algorithm as amended (see `specAccumAmended`); if no
sentence is accumulated the cleaned text is hard-truncated to `maxChars`
characters and trimmed. -/
def summarizeAmendedC6 (tok : String → List String) (text : String) (maxChars : Nat) : String :=
  if text = "" then ""
  else
    let cleaned := cleanText text
    let acc := specAccumAmended maxChars "" (tok cleaned)
    if acc = "" then stripStr (takeStr maxChars cleaned) else acc

/-- The stripped, nonempty sentence units of a tokenization — the sentences
the spec's round-trip property (claim C5) is about. -/
def strippedSentences (ss : List String) : List String :=
  (ss.map stripStr).filter (fun p => p ≠ "")

/-! ### SHA-1 (the `hashlib.sha1(url.encode("utf-8")).hexdigest()` of `stable_id`) -/

/-- UTF-8 encoding of one code point, as Python `str.encode("utf-8")`
produces it. -/
def utf8Bytes (c : Char) : List Nat :=
  let u := c.toNat
  if u < 0x80 then [u]
  else if u < 0x800 then
    [0xC0 + u / 0x40, 0x80 + u % 0x40]
  else if u < 0x10000 then
    [0xE0 + u / 0x1000, 0x80 + u / 0x40 % 0x40, 0x80 + u % 0x40]
  else
    [0xF0 + u / 0x40000, 0x80 + u / 0x1000 % 0x40, 0x80 + u / 0x40 % 0x40, 0x80 + u % 0x40]

/-- UTF-8 encoding of a string as a byte list. -/
def utf8Encode (s : String) : List Nat := (s.data.map utf8Bytes).flatten

/-- Left rotation of a 32-bit word held in a `Nat`. -/
def rotl32 (k n : Nat) : Nat :=
  (n * 2 ^ k + n / 2 ^ (32 - k)) % 2 ^ 32

/-- Big-endian byte rendering of `n` on `k` bytes. -/
def beBytes : Nat → Nat → List Nat
  | _, 0 => []
  | n, k + 1 => beBytes (n / 256) k ++ [n % 256]

/-- SHA-1 message padding: append `0x80`, zero bytes to 56 mod 64, then the
bit length on 8 big-endian bytes. -/
def sha1Pad (msg : List Nat) : List Nat :=
  msg ++ [0x80] ++ List.replicate ((119 - msg.length % 64) % 64) 0
      ++ beBytes (8 * msg.length) 8

/-- Split a byte list into 64-byte chunks (structural recursion on a fuel
bound so that the kernel can evaluate it; the fuel `l.length` always
suffices). -/
def chunks64Go : Nat → List Nat → List (List Nat)
  | 0, _ => []
  | _, [] => []
  | fuel + 1, c :: cs => (c :: cs).take 64 :: chunks64Go fuel ((c :: cs).drop 64)

/-- Split a byte list into 64-byte chunks. -/
def chunks64 (l : List Nat) : List (List Nat) := chunks64Go l.length l

/-- Pack four big-endian bytes at a time into 32-bit words. -/
def packWords : List Nat → List Nat
  | a :: b :: c :: d :: rest => (a * 0x1000000 + b * 0x10000 + c * 0x100 + d) :: packWords rest
  | _ => []

/-- Message-schedule extension: append `count` further words, each the
1-rotation of the xor of the words 3, 8, 14 and 16 places back. -/
def extendWords (ws : List Nat) : Nat → List Nat
  | 0 => ws
  | count + 1 =>
    let n := ws.length
    let w := rotl32 1 (Nat.xor (Nat.xor (ws.getD (n - 3) 0) (ws.getD (n - 8) 0))
      (Nat.xor (ws.getD (n - 14) 0) (ws.getD (n - 16) 0)))
    extendWords (ws ++ [w]) count

/-- The SHA-1 round function for round `i` (0-based). -/
def sha1F (i b c d : Nat) : Nat :=
  if i < 20 then Nat.lor (Nat.land b c) (Nat.land ((2 ^ 32 - 1) - b) d)
  else if i < 40 then Nat.xor (Nat.xor b c) d
  else if i < 60 then Nat.lor (Nat.lor (Nat.land b c) (Nat.land b d)) (Nat.land c d)
  else Nat.xor (Nat.xor b c) d

/-- The SHA-1 round constant for round `i` (0-based). -/
def sha1K (i : Nat) : Nat :=
  if i < 20 then 0x5A827999
  else if i < 40 then 0x6ED9EBA1
  else if i < 60 then 0x8F1BBCDC
  else 0xCA62C1D6

/-- One 64-byte chunk of the SHA-1 compression, starting from hash state
`(h0, h1, h2, h3, h4)`. -/
def sha1Chunk (h : Nat × Nat × Nat × Nat × Nat) (chunk : List Nat) :
    Nat × Nat × Nat × Nat × Nat :=
  let ws := extendWords (packWords chunk) 64
  let (h0, h1, h2, h3, h4) := h
  let step := fun (st : Nat × Nat × Nat × Nat × Nat × Nat) (w : Nat) =>
    let (i, a, b, c, d, e) := st
    let t := (rotl32 5 a + sha1F i b c d + e + sha1K i + w) % 2 ^ 32
    (i + 1, t, a, rotl32 30 b, c, d)
  let (_, a, b, c, d, e) := ws.foldl step (0, h0, h1, h2, h3, h4)
  ((h0 + a) % 2 ^ 32, (h1 + b) % 2 ^ 32, (h2 + c) % 2 ^ 32,
    (h3 + d) % 2 ^ 32, (h4 + e) % 2 ^ 32)

/-- One lowercase hexadecimal digit. -/
def hexDigit (n : Nat) : Char :=
  if n < 10 then Char.ofNat (48 + n) else Char.ofNat (87 + n)

/-- Fixed-width lowercase hexadecimal rendering of `n` on `k` digits. -/
def hexFixed : Nat → Nat → List Char
  | _, 0 => []
  | n, k + 1 => hexFixed (n / 16) k ++ [hexDigit (n % 16)]

/-- SHA-1 of a byte list, rendered as the 40-character lowercase hex digest
(`hashlib.sha1(...).hexdigest()`). -/
def sha1Hex (msg : List Nat) : String :=
  let (h0, h1, h2, h3, h4) :=
    (chunks64 (sha1Pad msg)).foldl sha1Chunk
      (0x67452301, 0xEFCDAB89, 0x98BADCFE, 0x10325476, 0xC3D2E1F0)
  String.mk (hexFixed h0 8 ++ hexFixed h1 8 ++ hexFixed h2 8 ++ hexFixed h3 8 ++ hexFixed h4 8)

/-- `stable_id(url)` of `scraper/utils.py`:
`hashlib.sha1(url.encode("utf-8")).hexdigest()`. -/
def stable_id (url : String) : String := sha1Hex (utf8Encode url)

/-! ### Bias heuristics (`scraper/utils.py`) -/

/-- `detect_article_type(url)`:
`"Opinion" if "/opinion/" in url.lower() else "News"`. -/
def detect_article_type (url : String) : String :=
  if containsSub "/opinion/" (pyLower url) then "Opinion" else "News"

/-- A Python regex word character (`\w`): ASCII letter, digit or underscore
(the only word characters occurring in the marker lexicons and in news
text processed here). -/
def wordChar (c : Char) : Bool :=
  ('a' ≤ c && c ≤ 'z') || ('A' ≤ c && c ≤ 'Z') || ('0' ≤ c && c ≤ '9') || c = '_'

/-- Maximal runs of word characters of a text, i.e. the candidate matches of
a `\b(...)\b` whole-word regex alternation: `re.findall` with `\b` on both
sides counts exactly the maximal word runs equal to an alternative. -/
def wordsGo (acc : List Char) : List Char → List (List Char)
  | [] => if acc.isEmpty then [] else [acc.reverse]
  | c :: cs =>
    if wordChar c then wordsGo (c :: acc) cs
    else if acc.isEmpty then wordsGo [] cs
    else acc.reverse :: wordsGo [] cs

/-- The word tokens of a string (see `wordsGo`). -/
def pyWords (s : String) : List String := (wordsGo [] s.data).map String.mk

/-- The first-person pronoun alternatives of the `first_person` regex. -/
def firstPersonWords : List String := ["i", "we", "me", "us", "my", "our", "mine", "ours"]

/-- The modal-verb alternatives of the `modal_verbs` regex. -/
def modalWords : List String := ["should", "would", "could", "must", "might", "may", "ought"]

/-- The evaluative-adjective alternatives of the `evaluatives` regex. -/
def evaluativeWords : List String :=
  ["important", "significant", "remarkable", "terrible", "wonderful", "excellent",
    "poor", "good", "bad"]

/-- Count of case-insensitive whole-word matches of the alternatives `ws` in
`text` (the `len(regex.findall(text))` of `subjectivity_hint`). -/
def wordMatchCount (ws : List String) (text : String) : Nat :=
  (pyWords text).countP (fun w => pyLower w ∈ ws)

/-- `subjectivity_hint(text)` of `scraper/utils.py`: sum the three regex
match counts, then `"low"` for 0, `"medium"` for `score <= 2`, `"high"`
otherwise. -/
def subjectivity_hint (text : String) : String :=
  let score := wordMatchCount firstPersonWords text + wordMatchCount modalWords text
    + wordMatchCount evaluativeWords text
  if score = 0 then "low"
  else if score ≤ 2 then "medium"
  else "high"

/-! ### Data model and pipeline (`scraper/main.py`) -/

/-- External collaborators the pipeline calls but whose code lives outside
the repository: `parseDate` is `parse_date` (dateutil parsing composed with
the ISO round trip of `datetime.fromisoformat`, yielding the normalized
instant), `tok` is NLTK `sent_tokenize`, `sentiment` is the VADER compound
score of `sentiment_score` (scaled to an integer), and `fetchContent` is the
best-effort `fetch_content` page fetch (`none` models both a `None` return
and a swallowed exception). -/
structure Ext where
  parseDate : String → Option Int
  tok : String → List String
  sentiment : String → Int
  fetchContent : String → Option String

/-- A raw feed entry as `feedparser` hands it to `scrape_section`: each field
is `some`/`none` according to `key in entry` / `entry.get(key)`. -/
structure RawEntry where
  published : Option String := none
  updated : Option String := none
  pubDate : Option String := none
  date : Option String := none
  link : Option String := none
  title : Option String := none
  summary : Option String := none
  description : Option String := none
  deriving DecidableEq

/-- The `Bias` dataclass of `scraper/utils.py` (sentiment as an abstract
integer; `to_dict`'s 3-decimal rounding is the identity in this scaling). -/
structure Bias where
  article_type : String
  sentiment : Int
  subjectivity_hint : String
  deriving DecidableEq

/-- `compute_bias(url, title, summary)` of `scraper/utils.py`. -/
def compute_bias (ext : Ext) (url title summary : String) : Bias :=
  { article_type := detect_article_type url
    sentiment := ext.sentiment (stripStr (title ++ " " ++ summary))
    subjectivity_hint := subjectivity_hint (title ++ " " ++ summary) }

/-- One normalized article dictionary as built in `scrape_section`;
`published_at` is the normalized instant (see the header note on ISO-8601
strings vs. instants). -/
structure ArticleRecord where
  id : String
  url : Option String
  title : String
  published_at : Int
  «section» : String
  summary_auto : String
  bias_heuristic : Bias
  deriving DecidableEq

/-- The final JSON artifact of `main` (minus file I/O). -/
structure Snapshot where
  source : String
  generated_at : Int
  timezone : String
  items : List ArticleRecord
  deriving DecidableEq

/-- Python `x or y` for an optional string `x`: `y` when `x` is `None` or
empty. -/
def pyOrStr (x : Option String) (y : String) : String :=
  match x with
  | none => y
  | some s => if s = "" then y else s

/-- Python truthiness of an optional string. -/
def optTruthy (x : Option String) : Bool := (x.getD "") ≠ ""

/-- The date-selection step of `scrape_section` composed with parsing: the
first present key among `published`, `updated`, `pubDate`, `date` is chosen
(`break`); a missing or empty choice (`if not pub_str`) and a failed
`parse_date` both yield `none`. -/
def entryDate (ext : Ext) (e : RawEntry) : Option Int :=
  match e.published <|> e.updated <|> e.pubDate <|> e.date with
  | none => none
  | some s => if s = "" then none else ext.parseDate s

/-- The raw summary source of an entry:
`entry.get("summary") or entry.get("description") or ""`. -/
def rawSummary (e : RawEntry) : String :=
  pyOrStr e.summary (pyOrStr e.description "")

/-- The loop body of `scrape_section` past the date filter: unescape and trim
the title, summarize (with the best-effort full-page extraction fallback when
allowed), compute the bias heuristic, and emit the article dictionary. -/
def mkItem (ext : Ext) (sectionName : String) (allowExtract : Bool) (e : RawEntry)
    (ts : Int) : ArticleRecord :=
  let url := e.link
  let title := stripStr (htmlUnescape (e.title.getD ""))
  let s0 := summarize ext.tok (rawSummary e) 500
  let s1 :=
    if s0 = "" && allowExtract && optTruthy url then
      let page := (ext.fetchContent (url.getD "")).getD ""
      if page ≠ "" then summarize ext.tok page 500 else s0
    else s0
  { id := stable_id (pyOrStr url title)
    url := url
    title := title
    published_at := ts
    «section» := sectionName
    summary_auto := s1
    bias_heuristic := compute_bias ext (url.getD "") title s1 }

/-- The entry loop of `scrape_section`: drop entries without a parseable
date, drop entries strictly older than `window_start = now - window`, and
normalize the rest in feed order. -/
def processEntries (ext : Ext) (sectionName : String) (now window : Int)
    (allowExtract : Bool) (entries : List RawEntry) : List ArticleRecord :=
  entries.filterMap fun e =>
    match entryDate ext e with
    | none => none
    | some ts => if ts < now - window then none else some (mkItem ext sectionName allowExtract e ts)

/-- `items.sort(key=lambda x: x["published_at"], reverse=True)`: stable sort,
newest first. -/
def sortRecsDesc (items : List ArticleRecord) : List ArticleRecord :=
  List.insertionSort (fun a b => b.published_at ≤ a.published_at) items

/-- `scrape_section` of `scraper/main.py`, starting from the parsed feed
entries (fetching and feed parsing are outside the core): process the
entries, sort newest first, cap at the section's `max_items`. -/
def scrape_section (ext : Ext) (sectionName : String) (maxItems : Nat)
    (now window : Int) (allowExtract : Bool) (entries : List RawEntry) :
    List ArticleRecord :=
  (sortRecsDesc (processEntries ext sectionName now window allowExtract entries)).take maxItems

/-- The deduplication key of `deduplicate`:
`(item.get("url"), (item.get("title") or "").lower())` — for the records the
pipeline builds, `title` is always present, so `or ""` is the identity. -/
def dedupKey (r : ArticleRecord) : Option String × String :=
  (r.url, pyLower r.title)

/-- The loop of `deduplicate`, with `seen` as the set of keys already kept. -/
def dedupGo (seen : List (Option String × String)) :
    List ArticleRecord → List ArticleRecord
  | [] => []
  | x :: xs =>
    if dedupKey x ∈ seen then dedupGo seen xs
    else x :: dedupGo (dedupKey x :: seen) xs

/-- `deduplicate(items)` of `scraper/main.py`. -/
def deduplicate (items : List ArticleRecord) : List ArticleRecord :=
  dedupGo [] items

/-- One configured section together with the raw entries its feed produced
this run. -/
structure SectionInput where
  name : String
  maxItems : Nat
  entries : List RawEntry

/-- The aggregation core of `main`: scrape every section in configuration
order, concatenate, sort globally newest first, deduplicate, and assemble the
snapshot (`generated_at` is the injected `now`).  The pacing sleeps and the
network layer affect timing only, never the produced value. -/
def aggregate (ext : Ext) (tzName : String) (now window : Int) (allowExtract : Bool)
    (sections : List SectionInput) : Snapshot :=
  let allItems :=
    (sections.map fun sec =>
      scrape_section ext sec.name sec.maxItems now window allowExtract sec.entries).flatten
  { source := "CBC News"
    generated_at := now
    timezone := tzName
    items := deduplicate (sortRecsDesc allItems) }

/-! ### Concrete instantiations used to evaluate the pipeline -/

/-- A concrete external-collaborator instance for evaluating the pipeline on
closed inputs: dates parse to their length as an instant (with `""` and
`"bad"` failing), sentences are tokenized by the Punkt model, sentiment is
constantly zero, and the secondary page fetch always fails. -/
def extTest : Ext where
  parseDate := fun s => if s = "" ∨ s = "bad" then none else some (Int.ofNat s.length)
  tok := sentTokenizeModel
  sentiment := fun _ => 0
  fetchContent := fun _ => none

/-- A neutral bias value for hand-built records. -/
def biasNone : Bias := ⟨"News", 0, "low"⟩

/-- Hand-built record: url `u`, title `T`, newer timestamp. -/
def recA : ArticleRecord :=
  { id := "a", url := some "u", title := "T", published_at := 5, «section» := "s",
    summary_auto := "", bias_heuristic := biasNone }

/-- Hand-built record: same dedup key as `recA` (title differs only in case),
older timestamp. -/
def recB : ArticleRecord :=
  { id := "b", url := some "u", title := "t", published_at := 3, «section» := "s",
    summary_auto := "", bias_heuristic := biasNone }

/-- A raw entry whose date field parses (under `extTest`) to the instant 4. -/
def entryGood : RawEntry :=
  { published := some "aaaa", link := some "https://cbc.ca/x", title := some "Hello",
    summary := some "Fine." }

/-- A raw entry with no date field at all. -/
def entryNoDate : RawEntry := { title := some "No date" }

/-- A raw entry whose date field is present but unparseable. -/
def entryBadDate : RawEntry := { published := some "bad", title := some "Bad date" }

/-! ### Spec-side formalizations

These definitions follow the words of the spec sentences under test (not the
source); each claim theorem compares them with the source-derived functions
above. -/

/-- The remainder of a URL after the first `"://"`, when a scheme is
present. -/
def schemeRest : List Char → Option (List Char)
  | [] => none
  | ':' :: '/' :: '/' :: cs => some cs
  | _ :: cs => schemeRest cs

/-- The path component of a URL, as claim C7's words refer to it: everything
from the first `/` after the authority up to a `?` or `#`. -/
def urlPath (url : String) : String :=
  let hostRest := (schemeRest url.data).getD url.data
  String.mk ((hostRest.dropWhile (fun c => c != '/')).takeWhile
    (fun c => !(c == '?' || c == '#')))

/-- The nonempty path segments of a URL. -/
def pathSegments (url : String) : List String :=
  ((splitOnChar '/' (urlPath url).data).map String.mk).filter (fun seg => seg ≠ "")

/-- Claim C7's stated criterion: the URL path case-insensitively contains a
path segment `opinion`. -/
def pathHasOpinionSegment (url : String) : Bool :=
  (pathSegments url).any (fun seg => pyLower seg == "opinion")

/-- All marker words of the three classes of claim C8. -/
def allMarkerWords : List String := firstPersonWords ++ modalWords ++ evaluativeWords

/-- Claim C8's stated count: total case-insensitive whole-word occurrences of
the three marker classes in a text. -/
def specMarkerCount (text : String) : Nat :=
  (pyWords text).countP (fun w => pyLower w ∈ allMarkerWords)

/-- Claim C8's stated bucketing: 0 occurrences → low, 1 or 2 → medium,
at least 3 → high. -/
def specSubjectivityBucket (n : Nat) : String :=
  if 3 ≤ n then "high" else if 1 ≤ n then "medium" else "low"

/-! ## Theorems

First the generic character-list facts behind `pyStrip`, then the claim
theorems in order. -/

theorem data_mk (l : List Char) : (String.mk l).data = l := rfl

theorem length_dropWhile_le' {α : Type} (p : α → Bool) (l : List α) :
    (l.dropWhile p).length ≤ l.length := by
  induction l with
  | nil => simp [List.dropWhile]
  | cons a l ih =>
    rw [List.dropWhile_cons]
    split
    · exact le_trans ih (by simp)
    · simp

theorem head?_dropWhile {α : Type} {p : α → Bool} {l : List α} {c : α}
    (h : (l.dropWhile p).head? = some c) : p c = false := by
  induction l with
  | nil => simp [List.dropWhile] at h
  | cons a l ih =>
    rw [List.dropWhile_cons] at h
    by_cases hpa : p a = true
    · rw [if_pos hpa] at h; exact ih h
    · rw [if_neg hpa] at h
      simp only [List.head?_cons, Option.some.injEq] at h
      subst h
      simpa using hpa

theorem dropWhile_eq_self {α : Type} {p : α → Bool} {l : List α}
    (h : ∀ c, l.head? = some c → p c = false) : l.dropWhile p = l := by
  cases l with
  | nil => rfl
  | cons a l => rw [List.dropWhile_cons, if_neg (by simp [h a rfl])]

theorem getLast?_dropWhile {α : Type} {p : α → Bool} {l : List α}
    (h : l.dropWhile p ≠ []) : (l.dropWhile p).getLast? = l.getLast? := by
  induction l with
  | nil => simp [List.dropWhile] at h
  | cons a l ih =>
    rw [List.dropWhile_cons] at h ⊢
    by_cases hpa : p a = true
    · rw [if_pos hpa] at h ⊢
      cases l with
      | nil => simp [List.dropWhile] at h
      | cons b t => rw [ih h, List.getLast?_cons_cons]
    · rw [if_neg hpa]

theorem head?_pyStrip {l : List Char} {c : Char}
    (h : (pyStrip l).head? = some c) : isWsChar c = false := by
  unfold pyStrip at h
  rw [List.head?_reverse] at h
  have hB : (List.dropWhile isWsChar (List.dropWhile isWsChar l).reverse) ≠ [] := by
    intro e; rw [e] at h; simp at h
  rw [getLast?_dropWhile hB, List.getLast?_reverse] at h
  exact head?_dropWhile h

theorem getLast?_pyStrip {l : List Char} {c : Char}
    (h : (pyStrip l).getLast? = some c) : isWsChar c = false := by
  unfold pyStrip at h
  rw [List.getLast?_reverse] at h
  exact head?_dropWhile h

theorem pyStrip_eq_self {l : List Char}
    (h1 : ∀ c, l.head? = some c → isWsChar c = false)
    (h2 : ∀ c, l.getLast? = some c → isWsChar c = false) : pyStrip l = l := by
  unfold pyStrip
  rw [dropWhile_eq_self h1,
    dropWhile_eq_self (fun c hc => h2 c (by rwa [List.head?_reverse] at hc)),
    List.reverse_reverse]

theorem pyStrip_idem (l : List Char) : pyStrip (pyStrip l) = pyStrip l :=
  pyStrip_eq_self (fun _ h => head?_pyStrip h) (fun _ h => getLast?_pyStrip h)

theorem pyStrip_length_le (l : List Char) : (pyStrip l).length ≤ l.length := by
  unfold pyStrip
  rw [List.length_reverse]
  calc (List.dropWhile isWsChar (List.dropWhile isWsChar l).reverse).length
      ≤ (List.dropWhile isWsChar l).reverse.length := length_dropWhile_le' _ _
    _ = (List.dropWhile isWsChar l).length := List.length_reverse _
    _ ≤ l.length := length_dropWhile_le' _ _

theorem pyStrip_eq_nil_of_all {l : List Char} (h : ∀ c ∈ l, isWsChar c = true) :
    pyStrip l = [] := by
  unfold pyStrip
  rw [List.dropWhile_eq_nil_iff.mpr h]
  rfl

theorem all_ws_of_pyStrip_eq_nil {l : List Char} (h : pyStrip l = []) :
    ∀ c ∈ l, isWsChar c = true := by
  unfold pyStrip at h
  have hrev := List.reverse_eq_nil_iff.mp h
  have hA : List.dropWhile isWsChar l = [] := by
    rcases hA : List.dropWhile isWsChar l with _ | ⟨a, t⟩
    · rfl
    · exfalso
      have hwa : isWsChar a = false := head?_dropWhile (by rw [hA]; rfl)
      have hmem : a ∈ (List.dropWhile isWsChar l).reverse := by rw [hA]; simp
      have := List.dropWhile_eq_nil_iff.mp hrev a hmem
      simp [this] at hwa
  exact List.dropWhile_eq_nil_iff.mp hA

theorem stripStr_idem (s : String) : stripStr (stripStr s) = stripStr s := by
  unfold stripStr
  rw [data_mk, pyStrip_idem]

theorem stripStr_length_le (s : String) : (stripStr s).length ≤ s.length := by
  unfold stripStr String.length
  rw [data_mk]
  exact pyStrip_length_le s.data

/-- Claim C4 — summarizer length bound: for every tokenizer, input text and
`maxChars ≥ 0`, the summary is at most `maxChars` characters long, carries no
leading or trailing whitespace (stripping it again is the identity), and
empty input yields the empty string. -/
theorem C4_summarize_length_bound (tok : String → List String) (text : String)
    (maxChars : Nat) :
    (summarize tok text maxChars).length ≤ maxChars ∧
      stripStr (summarize tok text maxChars) = summarize tok text maxChars ∧
      summarize tok "" maxChars = "" := by
  refine ⟨?_, ?_, rfl⟩
  · by_cases h : text = ""
    · simp [summarize, h]
    · unfold summarize
      rw [if_neg h]
      refine le_trans (stripStr_length_le _) ?_
      show (List.take maxChars _).length ≤ maxChars
      rw [List.length_take]
      exact min_le_left _ _
  · by_cases h : text = ""
    · simp [summarize, h]
      rfl
    · unfold summarize
      rw [if_neg h]
      exact stripStr_idem _

theorem joinSpace_snoc {ps : List String} (s : String) (h : ps ≠ []) :
    joinSpace (ps ++ [s]) = joinSpace ps ++ " " ++ s := by
  induction ps with
  | nil => exact absurd rfl h
  | cons p ps ih =>
    cases ps with
    | nil => rfl
    | cons q t =>
      show joinSpace (p :: ((q :: t) ++ [s])) = _
      rw [show joinSpace (p :: ((q :: t) ++ [s]))
          = p ++ " " ++ joinSpace ((q :: t) ++ [s]) from rfl,
        ih (by simp),
        show joinSpace (p :: q :: t) = p ++ " " ++ joinSpace (q :: t) from rfl]
      apply String.ext_iff.mpr
      simp [String.data_append, List.append_assoc]

theorem sum1_joinSpace {ps : List String} (h : ps ≠ []) :
    (joinSpace ps).length + 1 = sum1 ps := by
  induction ps with
  | nil => exact absurd rfl h
  | cons p ps ih =>
    cases ps with
    | nil => simp [joinSpace, sum1]
    | cons q t =>
      rw [show joinSpace (p :: q :: t) = p ++ " " ++ joinSpace (q :: t) from rfl]
      have hs : sum1 (p :: q :: t) = p.length + 1 + sum1 (q :: t) := by
        simp [sum1]
      rw [hs, ← ih (by simp), String.length_append, String.length_append,
        show (" " : String).length = 1 from rfl]
      ring

theorem joinSpace_ne_empty {ps : List String} (h : ps ≠ [])
    (hne : ∀ p ∈ ps, p ≠ "") : joinSpace ps ≠ "" := by
  cases ps with
  | nil => exact absurd rfl h
  | cons p t =>
    cases t with
    | nil => exact hne p (by simp)
    | cons q t =>
      rw [show joinSpace (p :: q :: t) = p ++ " " ++ joinSpace (q :: t) from rfl]
      intro e
      have : (p ++ " " ++ joinSpace (q :: t)).length = 0 := by rw [e]; rfl
      rw [String.length_append, String.length_append,
        show (" " : String).length = 1 from rfl] at this
      omega

theorem kept_good {maxChars : Nat} :
    ∀ (ss : List String) (total : Nat) (p : String), p ∈ kept maxChars total ss →
      stripStr p = p ∧ p ≠ "" := by
  intro ss
  induction ss with
  | nil => intro total p hp; simp [kept] at hp
  | cons s ss ih =>
    intro total p hp
    rw [kept] at hp
    by_cases he : stripStr s = ""
    · rw [if_pos he] at hp; exact ih total p hp
    · rw [if_neg he] at hp
      by_cases hb : maxChars < total + (stripStr s).length + 1
      · rw [if_pos hb] at hp; simp at hp
      · rw [if_neg hb] at hp
        rcases List.mem_cons.mp hp with h | h
        · subst h; exact ⟨stripStr_idem s, he⟩
        · exact ih _ p h

theorem kept_sum1 {maxChars : Nat} :
    ∀ (ss : List String) (total : Nat), kept maxChars total ss = [] ∨
      total + sum1 (kept maxChars total ss) ≤ maxChars := by
  intro ss
  induction ss with
  | nil => intro total; left; rfl
  | cons s ss ih =>
    intro total
    rw [kept]
    by_cases he : stripStr s = ""
    · rw [if_pos he]; exact ih total
    · rw [if_neg he]
      by_cases hb : maxChars < total + (stripStr s).length + 1
      · rw [if_pos hb]; left; rfl
      · rw [if_neg hb]
        right
        have hs : sum1 (stripStr s :: kept maxChars (total + (stripStr s).length + 1) ss)
            = ((stripStr s).length + 1) + sum1 (kept maxChars (total + (stripStr s).length + 1) ss) := by
          simp [sum1]
        rw [hs]
        rcases ih (total + (stripStr s).length + 1) with h0 | h0
        · rw [h0]; simp [sum1]; omega
        · omega

theorem head?_data_of_stripped {p : String} (hp : stripStr p = p ∧ p ≠ "") :
    ∀ c, p.data.head? = some c → isWsChar c = false := by
  intro c hc
  apply head?_pyStrip (l := p.data)
  have : (stripStr p).data = pyStrip p.data := data_mk _
  rw [hp.1] at this
  rwa [← this]

theorem getLast?_data_of_stripped {p : String} (hp : stripStr p = p ∧ p ≠ "") :
    ∀ c, p.data.getLast? = some c → isWsChar c = false := by
  intro c hc
  apply getLast?_pyStrip (l := p.data)
  have : (stripStr p).data = pyStrip p.data := data_mk _
  rw [hp.1] at this
  rwa [← this]

theorem head?_joinSpace {ps : List String} (h : ps ≠ [])
    (hg : ∀ p ∈ ps, stripStr p = p ∧ p ≠ "") :
    (joinSpace ps).data.head? = (ps.headI).data.head? := by
  cases ps with
  | nil => exact absurd rfl h
  | cons p t =>
    cases t with
    | nil => rfl
    | cons q u =>
      rw [show joinSpace (p :: q :: u) = p ++ " " ++ joinSpace (q :: u) from rfl]
      have hp : p ≠ "" := (hg p (by simp)).2
      simp only [List.headI]
      rw [String.data_append, String.data_append]
      rcases hd : p.data with _ | ⟨c, cs⟩
      · exact absurd (String.ext_iff.mpr (by rw [hd])) hp
      · rfl

theorem getLast?_joinSpace {ps : List String} (h : ps ≠ [])
    (hg : ∀ p ∈ ps, stripStr p = p ∧ p ≠ "") :
    ∀ c, (joinSpace ps).data.getLast? = some c → isWsChar c = false := by
  induction ps with
  | nil => exact absurd rfl h
  | cons p t ih =>
    intro c hc
    cases t with
    | nil => exact getLast?_data_of_stripped (hg p (by simp)) c hc
    | cons q u =>
      rw [show joinSpace (p :: q :: u) = p ++ " " ++ joinSpace (q :: u) from rfl] at hc
      have hqu : joinSpace (q :: u) ≠ "" :=
        joinSpace_ne_empty (by simp) (fun x hx => (hg x (by simp [hx])).2)
      rw [String.data_append, List.getLast?_append_of_ne_nil _
        (fun e => hqu (String.ext_iff.mpr (by rw [e])))] at hc
      exact ih (by simp) (fun x hx => hg x (List.mem_cons_of_mem p hx)) c hc

theorem stripStr_joinSpace {ps : List String} (h : ps ≠ [])
    (hg : ∀ p ∈ ps, stripStr p = p ∧ p ≠ "") :
    stripStr (joinSpace ps) = joinSpace ps := by
  have hhead : ∀ c, (joinSpace ps).data.head? = some c → isWsChar c = false := by
    intro c hc
    rw [head?_joinSpace h hg] at hc
    cases ps with
    | nil => exact absurd rfl h
    | cons p t => exact head?_data_of_stripped (hg p (by simp)) c hc
  have := pyStrip_eq_self hhead (getLast?_joinSpace h hg)
  unfold stripStr
  rw [this]

theorem strip_take_twice (mc : Nat) (s : String) :
    stripStr (takeStr mc (stripStr (takeStr mc s))) = stripStr (takeStr mc s) := by
  have hlen : (stripStr (takeStr mc s)).length ≤ mc := by
    refine le_trans (stripStr_length_le _) ?_
    show (List.take mc s.data).length ≤ mc
    rw [List.length_take]
    exact min_le_left _ _
  have htake : takeStr mc (stripStr (takeStr mc s)) = stripStr (takeStr mc s) :=
    String.ext_iff.mpr (List.take_of_length_le hlen)
  rw [htake, stripStr_idem]

theorem specAccumAmended_eq_kept {maxChars : Nat} :
    ∀ (ss parts : List String), (∀ p ∈ parts, stripStr p = p ∧ p ≠ "") →
      specAccumAmended maxChars (joinSpace parts) ss
        = joinSpace (parts ++ kept maxChars (sum1 parts) ss) := by
  intro ss
  induction ss with
  | nil => intro parts hg; simp [specAccumAmended, kept]
  | cons s ss ih =>
    intro parts hg
    rw [specAccumAmended, kept]
    simp only []
    by_cases he : stripStr s = ""
    · rw [if_pos he, if_pos he]
      exact ih parts hg
    · rw [if_neg he, if_neg he]
      have hcand : (if joinSpace parts = "" then stripStr s
          else joinSpace parts ++ " " ++ stripStr s) = joinSpace (parts ++ [stripStr s]) := by
        by_cases hp : parts = []
        · subst hp; rfl
        · rw [if_neg (joinSpace_ne_empty hp (fun x hx => (hg x hx).2)),
            joinSpace_snoc _ hp]
      have hsum : sum1 (parts ++ [stripStr s]) = sum1 parts + ((stripStr s).length + 1) := by
        simp [sum1, List.sum_append]
      have hlen : (joinSpace (parts ++ [stripStr s])).length
          = sum1 parts + (stripStr s).length := by
        have h1 := @sum1_joinSpace (parts ++ [stripStr s]) (by simp)
        omega
      rw [hcand, hlen]
      by_cases hb : maxChars < sum1 parts + (stripStr s).length + 1
      · rw [if_pos hb, if_neg (by omega)]
        simp
      · rw [if_neg hb, if_pos (by omega)]
        have hg' : ∀ p ∈ parts ++ [stripStr s], stripStr p = p ∧ p ≠ "" := by
          intro p hp
          rcases List.mem_append.mp hp with h | h
          · exact hg p h
          · rcases List.mem_singleton.mp h with rfl
            exact ⟨stripStr_idem s, he⟩
        have := ih (parts ++ [stripStr s]) hg'
        rw [hsum] at this
        rw [this, List.append_assoc]
        rfl

theorem specAccumAmended_nil_start (maxChars : Nat) (ss : List String) :
    specAccumAmended maxChars "" ss = joinSpace (kept maxChars 0 ss) := by
  simpa using specAccumAmended_eq_kept ss [] (by simp)

/-- Claim C6 (amended) — summarizer algorithm: `summarize` accumulates whole
sentences in order, one space apart, stopping at the first sentence whose
addition would make the joined length reach or exceed `maxChars` (the loop
reserves one extra character per sentence, so a candidate fits only while the
joined text stays strictly below `maxChars`); if zero sentences fit it falls
back to the cleaned text hard-truncated to `maxChars` characters and
trimmed. -/
theorem C6_summarize_algorithm (tok : String → List String) (text : String)
    (maxChars : Nat) :
    summarize tok text maxChars = summarizeAmendedC6 tok text maxChars := by
  by_cases h : text = ""
  · rw [h]
    rfl
  · unfold summarize summarizeAmendedC6
    rw [if_neg h, if_neg h]
    simp only []
    rw [specAccumAmended_nil_start]
    by_cases hp : kept maxChars 0 (tok (cleanText text)) = []
    · rw [hp, if_pos rfl, show joinSpace ([] : List String) = "" from rfl, if_pos rfl]
      exact strip_take_twice _ _
    · have hgood : ∀ p ∈ kept maxChars 0 (tok (cleanText text)),
          stripStr p = p ∧ p ≠ "" := fun p hp2 => kept_good _ _ p hp2
      have hne : joinSpace (kept maxChars 0 (tok (cleanText text))) ≠ "" :=
        joinSpace_ne_empty hp (fun p h2 => (hgood p h2).2)
      rw [if_neg hp, if_neg hne]
      have hlen : (joinSpace (kept maxChars 0 (tok (cleanText text)))).length ≤ maxChars := by
        rcases @kept_sum1 maxChars (tok (cleanText text)) 0 with h0 | h0
        · exact absurd h0 hp
        · have := sum1_joinSpace hp
          omega
      have htake : takeStr maxChars (joinSpace (kept maxChars 0 (tok (cleanText text))))
          = joinSpace (kept maxChars 0 (tok (cleanText text))) :=
        String.ext_iff.mpr (List.take_of_length_le hlen)
      rw [htake, stripStr_joinSpace hp hgood]

/-- Claim C6, counterexample to the stated stopping rule: with
`maxChars = 12` and the two sentences of `"Go on. Stop."` (joined length
exactly 12), adding the second sentence would not exceed `maxChars`, so the
claimed algorithm keeps it, but the code stops and outputs only the first
sentence. -/
theorem C6_counterexample :
    summarize sentTokenizeModel "Go on. Stop." 12 = "Go on." ∧
      summarizeClaimedC6 sentTokenizeModel "Go on. Stop." 12 = "Go on. Stop." ∧
      summarize sentTokenizeModel "Go on. Stop." 12
        ≠ summarizeClaimedC6 sentTokenizeModel "Go on. Stop." 12 := by
  refine ⟨by decide, by decide, by decide⟩

theorem kept_of_all_fit {maxChars : Nat} :
    ∀ (ss : List String) (total : Nat),
      total + sum1 (strippedSentences ss) ≤ maxChars →
      kept maxChars total ss = strippedSentences ss := by
  intro ss
  induction ss with
  | nil => intro total _; rfl
  | cons s ss ih =>
    intro total htotal
    rw [kept]
    by_cases he : stripStr s = ""
    · rw [if_pos he]
      have hstr : strippedSentences (s :: ss) = strippedSentences ss := by
        unfold strippedSentences
        rw [List.map_cons, List.filter_cons, if_neg (by simp [he])]
      rw [hstr] at htotal ⊢
      exact ih total htotal
    · have hstr : strippedSentences (s :: ss) = stripStr s :: strippedSentences ss := by
        unfold strippedSentences
        rw [List.map_cons, List.filter_cons, if_pos (by simp [he])]
      rw [hstr] at htotal ⊢
      have hsum : sum1 (stripStr s :: strippedSentences ss)
          = ((stripStr s).length + 1) + sum1 (strippedSentences ss) := by
        simp [sum1]
      rw [hsum] at htotal
      rw [if_neg he, if_neg (by omega)]
      rw [ih (total + (stripStr s).length + 1) (by omega)]

theorem strippedSentences_good (ss : List String) :
    ∀ p ∈ strippedSentences ss, stripStr p = p ∧ p ≠ "" := by
  intro p hp
  unfold strippedSentences at hp
  rcases List.mem_filter.mp hp with ⟨hmem, hne⟩
  rcases List.mem_map.mp hmem with ⟨q, _, rfl⟩
  exact ⟨stripStr_idem q, by simpa using hne⟩

/-- Claim C5 (amended) — summarizer round-trip: whenever the tokenizer's
stripped sentences joined by single spaces reconstruct the cleaned trimmed
text and that text is strictly shorter than `maxChars`, the summary is
exactly the cleaned, whitespace-trimmed text. -/
theorem C5_summarize_round_trip (tok : String → List String) (text : String)
    (maxChars : Nat)
    (h1 : joinSpace (strippedSentences (tok (cleanText text)))
      = stripStr (cleanText text))
    (h2 : (stripStr (cleanText text)).length < maxChars) :
    summarize tok text maxChars = stripStr (cleanText text) := by
  by_cases h : text = ""
  · subst h
    show "" = stripStr (cleanText "")
    rfl
  · unfold summarize
    rw [if_neg h]
    simp only []
    by_cases hp : strippedSentences (tok (cleanText text)) = []
    · have hempty : stripStr (cleanText text) = "" := by rw [← h1, hp]; rfl
      have hkept : kept maxChars 0 (tok (cleanText text)) = [] := by
        rw [kept_of_all_fit _ 0 (by rw [hp]; simp [sum1])]
        exact hp
      rw [hkept, if_pos rfl, strip_take_twice, hempty]
      have hall : ∀ c ∈ (cleanText text).data, isWsChar c = true := by
        apply all_ws_of_pyStrip_eq_nil
        have : (stripStr (cleanText text)).data = ("" : String).data := by rw [hempty]
        rwa [data_mk] at this
      show stripStr (takeStr maxChars (cleanText text)) = ""
      apply String.ext_iff.mpr
      show pyStrip ((cleanText text).data.take maxChars) = ("" : String).data
      rw [pyStrip_eq_nil_of_all (fun c hc => hall c (List.take_subset _ _ hc))]
    · have hfit : 0 + sum1 (strippedSentences (tok (cleanText text))) ≤ maxChars := by
        have := sum1_joinSpace hp
        rw [h1] at this
        omega
      rw [kept_of_all_fit _ 0 hfit, if_neg hp]
      have hlen : (joinSpace (strippedSentences (tok (cleanText text)))).length ≤ maxChars := by
        rw [h1]; omega
      have htake : takeStr maxChars (joinSpace (strippedSentences (tok (cleanText text))))
          = joinSpace (strippedSentences (tok (cleanText text))) :=
        String.ext_iff.mpr (List.take_of_length_le hlen)
      rw [htake, stripStr_joinSpace hp (strippedSentences_good _), h1]

/-- Claim C5, counterexample to the stated bound: the cleaned form of
`"It is good. It is bad."` has length exactly 22 (so "at most `maxChars`"
holds at `maxChars = 22`), yet the summary keeps only the first sentence
because the loop reserves one extra character per sentence. -/
theorem C5_counterexample :
    (cleanText "It is good. It is bad.").length ≤ 22 ∧
      stripStr (cleanText "It is good. It is bad.")
        = cleanText "It is good. It is bad." ∧
      summarize sentTokenizeModel "It is good. It is bad." 22
        ≠ stripStr (cleanText "It is good. It is bad.") := by
  refine ⟨by decide, by decide, by decide⟩

/-- Witness for the amended claim C5 at a concrete input. -/
theorem C5_witness :
    joinSpace (strippedSentences (sentTokenizeModel (cleanText "Hi. Yo.")))
        = stripStr (cleanText "Hi. Yo.") ∧
      (stripStr (cleanText "Hi. Yo.")).length < 10 ∧
      summarize sentTokenizeModel "Hi. Yo." 10 = stripStr (cleanText "Hi. Yo.") :=
  ⟨by decide, by decide,
    C5_summarize_round_trip sentTokenizeModel "Hi. Yo." 10 (by decide) (by decide)⟩

/-- Claim C7, counterexample to the stated criterion: the path of
`https://www.cbc.ca/news/opinion` contains the segment `opinion`, yet the
code classifies it as `News` because the URL lacks the literal substring
`/opinion/`. -/
theorem C7_counterexample :
    detect_article_type "https://www.cbc.ca/news/opinion" = "News" ∧
      pathHasOpinionSegment "https://www.cbc.ca/news/opinion" = true := by
  refine ⟨by decide, by decide⟩

/-- Claim C7 (amended) — article-type classification: for every URL string,
the computed type is `Opinion` exactly when the lowercased URL contains the
literal substring `/opinion/` (anywhere — path, query or fragment; a final
path segment `opinion` without a trailing slash counts as `News`), and
otherwise it is `News`; the decision reads only the URL string. -/
theorem C7_article_type_amended (url : String) :
    (detect_article_type url = "Opinion" ↔ containsSub "/opinion/" (pyLower url) = true) ∧
      (detect_article_type url = "Opinion" ∨ detect_article_type url = "News") := by
  unfold detect_article_type
  by_cases h : containsSub "/opinion/" (pyLower url) = true
  · rw [if_pos h]
    exact ⟨⟨fun _ => h, fun _ => rfl⟩, Or.inl rfl⟩
  · rw [if_neg h]
    exact ⟨⟨fun he => absurd he (by decide), fun hc => absurd hc h⟩, Or.inr rfl⟩

theorem countP_disjoint_or {α : Type} (p q : α → Bool)
    (h : ∀ x, p x = true → q x = false) :
    ∀ l : List α, l.countP (fun x => p x || q x) = l.countP p + l.countP q := by
  intro l
  induction l with
  | nil => rfl
  | cons a l ih =>
    rw [List.countP_cons, List.countP_cons, List.countP_cons, ih]
    by_cases hp : p a = true
    · rw [h a hp]
      simp [hp]
      omega
    · simp only [Bool.not_eq_true] at hp
      simp [hp]
      by_cases hq : q a = true
      · simp [hq]
        omega
      · simp only [Bool.not_eq_true] at hq
        simp [hq]

theorem subjectivity_hint_eq_spec (text : String) :
    subjectivity_hint text = specSubjectivityBucket (specMarkerCount text) := by
  have hsplit : specMarkerCount text
      = wordMatchCount firstPersonWords text + wordMatchCount modalWords text
        + wordMatchCount evaluativeWords text := by
    unfold specMarkerCount wordMatchCount allMarkerWords
    have hcongr : ∀ w : String,
        (decide (pyLower w ∈ firstPersonWords ++ modalWords ++ evaluativeWords))
          = ((decide (pyLower w ∈ firstPersonWords)
            || decide (pyLower w ∈ modalWords))
            || decide (pyLower w ∈ evaluativeWords)) := by
      intro w
      simp [List.mem_append, Bool.decide_or, Bool.or_assoc]
    have hd1 : ∀ x ∈ firstPersonWords, ¬(x ∈ modalWords) := by decide
    have hd2 : ∀ x ∈ firstPersonWords, ¬(x ∈ evaluativeWords) := by decide
    have hd3 : ∀ x ∈ modalWords, ¬(x ∈ evaluativeWords) := by decide
    calc (pyWords text).countP (fun w => decide (pyLower w ∈ firstPersonWords ++ modalWords ++ evaluativeWords))
        = (pyWords text).countP (fun w => (decide (pyLower w ∈ firstPersonWords)
            || decide (pyLower w ∈ modalWords)) || decide (pyLower w ∈ evaluativeWords)) := by
          refine List.countP_congr ?_
          intro w _
          rw [hcongr w]
      _ = (pyWords text).countP (fun w => decide (pyLower w ∈ firstPersonWords)
            || decide (pyLower w ∈ modalWords))
          + (pyWords text).countP (fun w => decide (pyLower w ∈ evaluativeWords)) := by
          refine countP_disjoint_or _ _ ?_ _
          intro x hx
          simp only [Bool.or_eq_true, decide_eq_true_eq] at hx
          rcases hx with hx | hx
          · simpa using hd2 _ hx
          · simpa using hd3 _ hx
      _ = (pyWords text).countP (fun w => decide (pyLower w ∈ firstPersonWords))
          + (pyWords text).countP (fun w => decide (pyLower w ∈ modalWords))
          + (pyWords text).countP (fun w => decide (pyLower w ∈ evaluativeWords)) := by
          rw [countP_disjoint_or _ _ (fun x hx => by
            simp only [decide_eq_true_eq] at hx
            simpa using hd1 _ hx)]
  unfold subjectivity_hint specSubjectivityBucket
  rw [← hsplit]
  by_cases h0 : specMarkerCount text = 0
  · rw [if_pos h0, if_neg (by omega), if_neg (by omega)]
  · by_cases h2 : specMarkerCount text ≤ 2
    · rw [if_neg h0, if_pos h2, if_neg (by omega), if_pos (by omega)]
    · rw [if_neg h0, if_neg h2, if_pos (by omega)]

/-- Claim C8 — subjectivity bucketing: the subjectivity hint of the bias
heuristic equals the bucketing of the total count of case-insensitive
whole-word marker occurrences (first-person pronouns, modal verbs,
evaluative adjectives) in the concatenated title and summary:
0 → low, 1–2 → medium, ≥3 → high. -/
theorem C8_subjectivity_bucketing (ext : Ext) (url title summary : String) :
    (compute_bias ext url title summary).subjectivity_hint
      = specSubjectivityBucket (specMarkerCount (title ++ " " ++ summary)) :=
  subjectivity_hint_eq_spec (title ++ " " ++ summary)

theorem mem_dedupGo {seen : List (Option String × String)} {l : List ArticleRecord}
    {r : ArticleRecord} :
    r ∈ dedupGo seen l ↔ dedupKey r ∉ seen ∧
      ∃ pre post, l = pre ++ r :: post ∧ ∀ y ∈ pre, dedupKey y ≠ dedupKey r := by
  induction l generalizing seen with
  | nil =>
    constructor
    · intro h
      exact absurd h (by simp [dedupGo])
    · rintro ⟨-, pre, post, he, -⟩
      simp at he
  | cons x xs ih =>
    rw [dedupGo]
    by_cases hx : dedupKey x ∈ seen
    · rw [if_pos hx, ih]
      constructor
      · rintro ⟨hns, pre, post, he, hpre⟩
        refine ⟨hns, x :: pre, post, by rw [he]; rfl, fun y hy => ?_⟩
        rcases List.mem_cons.mp hy with rfl | hy
        · intro hk
          exact hns (hk ▸ hx)
        · exact hpre y hy
      · rintro ⟨hns, pre, post, he, hpre⟩
        cases pre with
        | nil =>
          rw [List.nil_append] at he
          injection he with h1 _
          subst h1
          exact absurd hx hns
        | cons z pre' =>
          injection he with h1 h2
          subst h1
          exact ⟨hns, pre', post, h2, fun y hy => hpre y (List.mem_cons_of_mem _ hy)⟩
    · rw [if_neg hx]
      constructor
      · intro h
        rcases List.mem_cons.mp h with rfl | h
        · exact ⟨hx, [], xs, rfl, by simp⟩
        · rcases ih.mp h with ⟨hns, pre, post, he, hpre⟩
          have hxr : dedupKey x ≠ dedupKey r := fun hk =>
            hns (by rw [← hk]; exact List.mem_cons_self _ _)
          refine ⟨fun hs => hns (List.mem_cons_of_mem _ hs), x :: pre, post,
            by rw [he]; rfl, fun y hy => ?_⟩
          rcases List.mem_cons.mp hy with rfl | hy
          · exact hxr
          · exact hpre y hy
      · rintro ⟨hns, pre, post, he, hpre⟩
        cases pre with
        | nil =>
          rw [List.nil_append] at he
          injection he with h1 _
          subst h1
          exact List.mem_cons_self _ _
        | cons z pre' =>
          injection he with h1 h2
          subst h1
          have hzr := hpre x (List.mem_cons_self _ _)
          refine List.mem_cons_of_mem _ (ih.mpr ⟨?_, pre', post, h2,
            fun y hy => hpre y (List.mem_cons_of_mem _ hy)⟩)
          intro hm
          rcases List.mem_cons.mp hm with hm | hm
          · exact hzr hm.symm
          · exact hns hm

theorem mem_pre_of_decomp {α : Type} :
    ∀ (pre : List α) (rest : List α) (a b : α) (pre' post' : List α),
      pre ++ a :: rest = pre' ++ b :: post' → b ∉ pre → b ≠ a → a ∈ pre' := by
  intro pre
  induction pre with
  | nil =>
    intro rest a b pre' post' he _ hba
    cases pre' with
    | nil =>
      rw [List.nil_append, List.nil_append] at he
      injection he with h1 _
      exact absurd h1.symm hba
    | cons z pre'' =>
      rw [List.nil_append] at he
      injection he with h1 _
      subst h1
      exact List.mem_cons_self _ _
  | cons x pre₂ ih =>
    intro rest a b pre' post' he hbp hba
    cases pre' with
    | nil =>
      rw [List.nil_append] at he
      injection he with h1 _
      subst h1
      exact absurd (List.mem_cons_self _ _) hbp
    | cons z pre'' =>
      injection he with h1 h2
      subst h1
      exact List.mem_cons_of_mem _
        (ih rest a b pre'' post' h2 (fun hb => hbp (List.mem_cons_of_mem _ hb)) hba)

/-- Claim C3 — deduplication keeps the newest: membership in
`deduplicate l` is exactly first occurrence of the `(url, lowercased title)`
key in `l`, and for two records with identical key but different timestamps,
the one occurring later in the (timestamp-descending) merged sequence never
survives. -/
theorem C3_dedup_keeps_first :
    (∀ (l : List ArticleRecord) (r : ArticleRecord),
      r ∈ deduplicate l ↔
        ∃ pre post, l = pre ++ r :: post ∧ ∀ y ∈ pre, dedupKey y ≠ dedupKey r) ∧
    (∀ (pre mid post : List ArticleRecord) (a b : ArticleRecord),
      dedupKey a = dedupKey b → a.published_at ≠ b.published_at → b ∉ pre →
      b ∉ deduplicate (pre ++ a :: (mid ++ b :: post))) := by
  have hmem : ∀ (l : List ArticleRecord) (r : ArticleRecord),
      r ∈ deduplicate l ↔
        ∃ pre post, l = pre ++ r :: post ∧ ∀ y ∈ pre, dedupKey y ≠ dedupKey r := by
    intro l r
    unfold deduplicate
    rw [mem_dedupGo]
    simp
  refine ⟨hmem, ?_⟩
  intro pre mid post a b hk hts hbp hmemb
  have hba : b ≠ a := by
    intro e
    subst e
    exact hts rfl
  rcases (hmem _ b).mp hmemb with ⟨pre', post', he, hpre'⟩
  have hain : a ∈ pre' := mem_pre_of_decomp pre (mid ++ b :: post) a b pre' post' he hbp hba
  exact hpre' a hain hk

/-- Witness for claim C3 at concrete records: `recA` and `recB` share the
dedup key (titles differ only in case) but have different timestamps, and the
later record does not survive. -/
theorem C3_witness :
    dedupKey recA = dedupKey recB ∧ recA.published_at ≠ recB.published_at ∧
      recB ∉ deduplicate [recA, recB] :=
  ⟨by decide, by decide,
    C3_dedup_keeps_first.2 [] [] [] recA recB (by decide) (by decide) (by simp)⟩

theorem dedupGo_sublist (seen : List (Option String × String)) :
    ∀ l : List ArticleRecord, (dedupGo seen l).Sublist l := by
  intro l
  induction l generalizing seen with
  | nil => simp [dedupGo]
  | cons x xs ih =>
    rw [dedupGo]
    by_cases hx : dedupKey x ∈ seen
    · rw [if_pos hx]
      exact (ih seen).cons x
    · rw [if_neg hx]
      exact (ih _).cons₂ x

theorem dedupGo_not_seen {seen : List (Option String × String)} :
    ∀ {l : List ArticleRecord} {r : ArticleRecord}, r ∈ dedupGo seen l →
      dedupKey r ∉ seen :=
  fun h => (mem_dedupGo.mp h).1

theorem dedupGo_pairwise (seen : List (Option String × String)) :
    ∀ l : List ArticleRecord,
      (dedupGo seen l).Pairwise (fun x y => dedupKey x ≠ dedupKey y) := by
  intro l
  induction l generalizing seen with
  | nil => exact List.Pairwise.nil
  | cons x xs ih =>
    rw [dedupGo]
    by_cases hx : dedupKey x ∈ seen
    · rw [if_pos hx]
      exact ih seen
    · rw [if_neg hx]
      refine List.Pairwise.cons ?_ (ih _)
      intro y hy hk
      exact dedupGo_not_seen hy (hk ▸ List.mem_cons_self _ _)

theorem dedupGo_idem :
    ∀ (l : List ArticleRecord) (seen : List (Option String × String)),
      dedupGo seen (dedupGo seen l) = dedupGo seen l := by
  intro l
  induction l with
  | nil => intro seen; rfl
  | cons x xs ih =>
    intro seen
    rw [dedupGo]
    by_cases hx : dedupKey x ∈ seen
    · rw [if_pos hx]
      exact ih seen
    · rw [if_neg hx, dedupGo, if_neg hx, ih]

/-- Claim C10 — `deduplicate` is an order-preserving idempotent filter: its
output is a subsequence of the input, no two output records share the
`(url, lowercased title)` key, deduplicating twice equals deduplicating once,
and every kept record is the first occurrence of its key. -/
theorem C10_dedup_filter (l : List ArticleRecord) :
    (deduplicate l).Sublist l ∧
      (deduplicate l).Pairwise (fun x y => dedupKey x ≠ dedupKey y) ∧
      deduplicate (deduplicate l) = deduplicate l ∧
      ∀ r ∈ deduplicate l,
        ∃ pre post, l = pre ++ r :: post ∧ ∀ y ∈ pre, dedupKey y ≠ dedupKey r :=
  ⟨dedupGo_sublist [] l, dedupGo_pairwise [] l, dedupGo_idem l [],
    fun r hr => by
      have := mem_dedupGo.mp hr
      exact this.2⟩

/-- Witness for claim C10 at a concrete record list. -/
theorem C10_witness :
    recA ∈ deduplicate [recA, recB] ∧
      ∃ pre post, [recA, recB] = pre ++ recA :: post ∧
        ∀ y ∈ pre, dedupKey y ≠ dedupKey recA :=
  ⟨by decide, (C10_dedup_filter [recA, recB]).2.2.2 recA (by decide)⟩

theorem perm_sortRecsDesc (l : List ArticleRecord) : (sortRecsDesc l).Perm l :=
  List.perm_insertionSort _ l

theorem mem_processEntries {ext : Ext} {name : String} {now window : Int}
    {ae : Bool} {entries : List RawEntry} {r : ArticleRecord}
    (hr : r ∈ processEntries ext name now window ae entries) :
    ∃ e ∈ entries, ∃ ts : Int, entryDate ext e = some ts ∧
      ¬(ts < now - window) ∧ r = mkItem ext name ae e ts := by
  unfold processEntries at hr
  rcases List.mem_filterMap.mp hr with ⟨e, he, hfe⟩
  rcases hd : entryDate ext e with _ | ts
  · rw [hd] at hfe
    exact absurd hfe (by simp)
  · rw [hd] at hfe
    simp only [] at hfe
    by_cases hlt : ts < now - window
    · rw [if_pos hlt] at hfe
      exact absurd hfe (by simp)
    · rw [if_neg hlt] at hfe
      injection hfe with hfe
      exact ⟨e, he, ts, hd, hlt, hfe.symm⟩

theorem mem_scrape_section {ext : Ext} {name : String} {maxItems : Nat}
    {now window : Int} {ae : Bool} {entries : List RawEntry} {r : ArticleRecord}
    (hr : r ∈ scrape_section ext name maxItems now window ae entries) :
    ∃ e ∈ entries, ∃ ts : Int, entryDate ext e = some ts ∧
      ¬(ts < now - window) ∧ r = mkItem ext name ae e ts := by
  unfold scrape_section at hr
  exact mem_processEntries (((perm_sortRecsDesc _).mem_iff).mp (List.take_subset _ _ hr))

theorem processEntries_drop {ext : Ext} {name : String} {now window : Int}
    {ae : Bool} (pre post : List RawEntry) (e : RawEntry)
    (h : (match entryDate ext e with
      | none => (none : Option ArticleRecord)
      | some ts => if ts < now - window then none
          else some (mkItem ext name ae e ts)) = none) :
    processEntries ext name now window ae (pre ++ e :: post)
      = processEntries ext name now window ae (pre ++ post) := by
  unfold processEntries
  rw [List.filterMap_append, List.filterMap_append, List.filterMap_cons, h]

/-- Claim C9 — date-failure handling: an entry with no present date field,
an empty one, or one `parse_date` rejects contributes nothing, and the other
entries of the section are processed exactly as if it were absent (the run
continues). -/
theorem C9_date_failure_dropped (ext : Ext) (name : String) (maxItems : Nat)
    (now window : Int) (ae : Bool) (pre post : List RawEntry) (e : RawEntry)
    (h : entryDate ext e = none) :
    scrape_section ext name maxItems now window ae (pre ++ e :: post)
      = scrape_section ext name maxItems now window ae (pre ++ post) := by
  unfold scrape_section
  rw [processEntries_drop pre post e (by rw [h])]

/-- Witness for claim C9: an entry with no date field and an entry whose date
string fails to parse are both dropped, the section result being that of the
remaining entries. -/
theorem C9_witness :
    entryDate extTest entryNoDate = none ∧ entryDate extTest entryBadDate = none ∧
      scrape_section extTest "s" 5 10 6 false ([entryGood] ++ entryNoDate :: [entryBadDate])
        = scrape_section extTest "s" 5 10 6 false ([entryGood] ++ [entryBadDate]) :=
  ⟨by decide, by decide,
    C9_date_failure_dropped extTest "s" 5 10 6 false [entryGood] [entryBadDate]
      entryNoDate (by decide)⟩

/-- Claim C2 — recency-window invariant: every record a section produces,
and hence every record of the final aggregated output, has its normalized
timestamp at least `now - window` (so anything strictly older is absent); an
entry whose parsed timestamp is strictly before `now - window` is dropped,
the section result being that of the remaining entries; and an entry whose
timestamp equals `now - window` exactly is retained by the window filter
(whenever the section cap does not cut the list). -/
theorem C2_recency_window (ext : Ext) (name : String) (maxItems : Nat)
    (now window : Int) (ae : Bool) :
    (∀ (entries : List RawEntry) (r : ArticleRecord),
        r ∈ scrape_section ext name maxItems now window ae entries →
        now - window ≤ r.published_at) ∧
    (∀ (tz : String) (sections : List SectionInput) (r : ArticleRecord),
        r ∈ (aggregate ext tz now window ae sections).items →
        now - window ≤ r.published_at) ∧
    (∀ (pre post : List RawEntry) (e : RawEntry) (ts : Int),
        entryDate ext e = some ts → ts < now - window →
        scrape_section ext name maxItems now window ae (pre ++ e :: post)
          = scrape_section ext name maxItems now window ae (pre ++ post)) ∧
    (∀ (entries : List RawEntry) (e : RawEntry),
        e ∈ entries → entryDate ext e = some (now - window) →
        entries.length ≤ maxItems →
        mkItem ext name ae e (now - window)
          ∈ scrape_section ext name maxItems now window ae entries) := by
  refine ⟨?_, ?_, ?_, ?_⟩
  · intro entries r hr
    rcases mem_scrape_section hr with ⟨e, -, ts, -, hlt, rfl⟩
    have hpub : (mkItem ext name ae e ts).published_at = ts := rfl
    rw [hpub]
    omega
  · intro tz sections r hr
    have hr2 := ((perm_sortRecsDesc _).mem_iff).mp ((dedupGo_sublist [] _).subset hr)
    rcases List.mem_flatten.mp hr2 with ⟨l, hl, hrl⟩
    rcases List.mem_map.mp hl with ⟨sec, -, rfl⟩
    rcases mem_scrape_section hrl with ⟨e, -, ts, -, hlt, rfl⟩
    have hpub : (mkItem ext sec.name ae e ts).published_at = ts := rfl
    rw [hpub]
    omega
  · intro pre post e ts hd hlt
    unfold scrape_section
    rw [processEntries_drop pre post e (by rw [hd]; simp [hlt])]
  · intro entries e he hd hlen
    unfold scrape_section
    have hmem : mkItem ext name ae e (now - window)
        ∈ processEntries ext name now window ae entries := by
      unfold processEntries
      refine List.mem_filterMap.mpr ⟨e, he, ?_⟩
      rw [hd]
      simp
    have hsorted := ((perm_sortRecsDesc _).mem_iff).mpr hmem
    have hlen2 : (sortRecsDesc (processEntries ext name now window ae entries)).length
        ≤ maxItems := by
      rw [(perm_sortRecsDesc _).length_eq]
      exact le_trans (List.length_filterMap_le _ _) hlen
    rw [List.take_of_length_le hlen2]
    exact hsorted

/-- Witness for claim C2: under `extTest`, `entryGood`'s date parses to the
instant 4 = now − window with `now = 10`, `window = 6`, and its record is
retained. -/
theorem C2_witness :
    entryGood ∈ [entryGood] ∧ entryDate extTest entryGood = some (10 - 6) ∧
      ([entryGood] : List RawEntry).length ≤ 5 ∧
      mkItem extTest "s" false entryGood (10 - 6)
        ∈ scrape_section extTest "s" 5 10 6 false [entryGood] :=
  ⟨by decide, by decide, by decide,
    (C2_recency_window extTest "s" 5 10 6 false).2.2.2 [entryGood] entryGood
      (by decide) (by decide) (by decide)⟩

/-- Claim C1 — determinism and id purity: for a fixed `now` and fixed
external collaborators, aggregation is a pure function of the section inputs
(two runs on the same inputs produce the identical snapshot), and every
record's `id` is `stable_id` of its URL — or of its title when the URL is
absent or empty (Python `url_entry or title`). -/
theorem C1_pipeline_deterministic (ext : Ext) (tz : String) (now window : Int)
    (ae : Bool) (sections : List SectionInput) :
    aggregate ext tz now window ae sections = aggregate ext tz now window ae sections ∧
      ∀ r ∈ (aggregate ext tz now window ae sections).items,
        r.id = stable_id (pyOrStr r.url r.title) := by
  refine ⟨rfl, ?_⟩
  intro r hr
  have hr2 : r ∈ sortRecsDesc ((sections.map fun sec =>
      scrape_section ext sec.name sec.maxItems now window ae sec.entries).flatten) :=
    (dedupGo_sublist [] _).subset hr
  have hr3 := ((perm_sortRecsDesc _).mem_iff).mp hr2
  rcases List.mem_flatten.mp hr3 with ⟨l, hl, hrl⟩
  rcases List.mem_map.mp hl with ⟨sec, -, rfl⟩
  rcases mem_scrape_section hrl with ⟨e, -, ts, -, -, rfl⟩
  rfl

set_option maxRecDepth 40000 in
/-- Witness for claim C1: a concrete one-section run containing the record of
`entryGood`, whose id is the SHA-1 digest of its URL. -/
theorem C1_witness :
    mkItem extTest "s" false entryGood 4
        ∈ (aggregate extTest "America/Toronto" 10 6 false
            [⟨"s", 5, [entryGood]⟩]).items ∧
      (mkItem extTest "s" false entryGood 4).id
        = stable_id (pyOrStr (mkItem extTest "s" false entryGood 4).url
            (mkItem extTest "s" false entryGood 4).title) :=
  ⟨by decide,
    (C1_pipeline_deterministic extTest "America/Toronto" 10 6 false
      [⟨"s", 5, [entryGood]⟩]).2 _ (by decide)⟩

end CBC
